import Mathlib

/-!
Verification of the HPACK encoder (`src/hpack/encoder.rs`).

Bytes are modelled as natural numbers; Rust's `as u8` truncation is written
`% 256`.  A Rust `panic!` (or an assertion failure) is modelled by returning
`none`.  The growable `BytesMut` destination buffer is a `List Nat`; pushing a
byte appends to the list, and the in-place writes `dst[i] = b` performed by the
string codec become `List.set`.
-/

namespace Hpack

/-- `encode_int_one_byte` from the source: true iff the integer can be fully
encoded in the first byte. -/
def encode_int_one_byte (value prefix_bits : Nat) : Bool :=
  value < (1 <<< prefix_bits) - 1

/-- The continuation-byte loop of `encode_int` (the source's
`while value >= 128` loop).  The first argument is fuel bounding the recursion
depth; `encode_int_loop` supplies `value` itself as fuel, which is always
enough because each iteration shifts `value` right by 7 bits. -/
def encode_int_loop_go : Nat → Nat → List Nat
  | 0, value => [value % 256]
  | fuel + 1, value =>
    if 128 ≤ value then
      (0x80 ||| value % 256) :: encode_int_loop_go fuel (value >>> 7)
    else
      [value % 256]

/-- The continuation bytes the source's `while value >= 128` loop emits,
followed by the final byte `value as u8`. -/
def encode_int_loop (value : Nat) : List Nat :=
  encode_int_loop_go value value

/-- `encode_int` from the source.  The `panic!("value out of range")` branch is
`none`; on success the result is the byte sequence appended to `dst`. -/
def encode_int (value prefix_bits first_byte : Nat) : Option (List Nat) :=
  if encode_int_one_byte value prefix_bits then
    some [first_byte ||| value % 256]
  else
    let low := (1 <<< prefix_bits) - 1
    let value' := value - low
    if value' > 0x0fffffff then
      none
    else
      some ((first_byte ||| low % 256) :: encode_int_loop value')

/-- `encode_size_update` from the source. -/
def encode_size_update (val : Nat) : Option (List Nat) :=
  encode_int val 5 0b00100000

lemma shiftRight_seven_lt (v : Nat) (h : 128 ≤ v) : v >>> 7 < v := by
  rw [Nat.shiftRight_eq_div_pow]
  exact Nat.div_lt_self (by omega) (by norm_num)

lemma encode_int_loop_go_congr :
    ∀ n m v, v ≤ n → v ≤ m → encode_int_loop_go n v = encode_int_loop_go m v := by
  intro n
  induction n with
  | zero =>
    intro m v hn _
    interval_cases v
    cases m with
    | zero => rfl
    | succ m => simp [encode_int_loop_go]
  | succ n ih =>
    intro m v hn hm
    cases m with
    | zero =>
      interval_cases v
      simp [encode_int_loop_go]
    | succ m =>
      simp only [encode_int_loop_go]
      by_cases h : 128 ≤ v
      · simp only [if_pos h]
        have hlt := shiftRight_seven_lt v h
        rw [ih m (v >>> 7) (by omega) (by omega)]
      · simp only [if_neg h]

lemma encode_int_loop_unfold (v : Nat) :
    encode_int_loop v =
      if 128 ≤ v then (0x80 ||| v % 256) :: encode_int_loop (v >>> 7)
      else [v % 256] := by
  cases v with
  | zero => simp [encode_int_loop, encode_int_loop_go]
  | succ w =>
    show encode_int_loop_go (w + 1) (w + 1) = _
    simp only [encode_int_loop_go]
    by_cases h : 128 ≤ w + 1
    · simp only [if_pos h]
      have hlt := shiftRight_seven_lt (w + 1) h
      rw [encode_int_loop_go_congr w ((w+1) >>> 7) ((w+1) >>> 7) (by omega) (by omega)]
      rfl
    · simp only [if_neg h]

lemma encode_int_loop_length :
    ∀ k v, v < 2 ^ (7 * k + 7) → (encode_int_loop v).length ≤ k + 1 := by
  intro k
  induction k with
  | zero =>
    intro v hv
    rw [encode_int_loop_unfold]
    have : ¬ 128 ≤ v := by norm_num at hv; omega
    simp [this]
  | succ k ih =>
    intro v hv
    rw [encode_int_loop_unfold]
    by_cases h : 128 ≤ v
    · simp only [if_pos h, List.length_cons]
      have hdiv : v >>> 7 < 2 ^ (7 * k + 7) := by
        rw [Nat.shiftRight_eq_div_pow]
        apply Nat.div_lt_of_lt_mul
        calc v < 2 ^ (7 * (k+1) + 7) := hv
        _ = 2 ^ 7 * 2 ^ (7 * k + 7) := by ring
      have := ih (v >>> 7) hdiv
      omega
    · simp [h]

/-- The continuation loop of the spec's reference integer algorithm
(spec 4.1): repeatedly emit `0x80 ||| (v &&& 0x7F)` while `v ≥ 128`,
shifting `v >>= 7`, then emit `v` (high bit clear).  Fuelled like
`encode_int_loop_go`. -/
def int_cont_spec_go : Nat → Nat → List Nat
  | 0, v => [v]
  | fuel + 1, v =>
    if 128 ≤ v then
      (0x80 ||| (v &&& 0x7f)) :: int_cont_spec_go fuel (v >>> 7)
    else
      [v]

/-- The continuation bytes of the spec's reference integer algorithm. -/
def int_cont_spec (v : Nat) : List Nat :=
  int_cont_spec_go v v

lemma int_cont_spec_go_congr :
    ∀ n m v, v ≤ n → v ≤ m → int_cont_spec_go n v = int_cont_spec_go m v := by
  intro n
  induction n with
  | zero =>
    intro m v hn _
    interval_cases v
    cases m with
    | zero => rfl
    | succ m => simp [int_cont_spec_go]
  | succ n ih =>
    intro m v hn hm
    cases m with
    | zero =>
      interval_cases v
      simp [int_cont_spec_go]
    | succ m =>
      simp only [int_cont_spec_go]
      by_cases h : 128 ≤ v
      · simp only [if_pos h]
        have hlt := shiftRight_seven_lt v h
        rw [ih m (v >>> 7) (by omega) (by omega)]
      · simp only [if_neg h]

lemma int_cont_spec_unfold (v : Nat) :
    int_cont_spec v =
      if 128 ≤ v then (0x80 ||| (v &&& 0x7f)) :: int_cont_spec (v >>> 7)
      else [v] := by
  cases v with
  | zero => simp [int_cont_spec, int_cont_spec_go]
  | succ w =>
    show int_cont_spec_go (w + 1) (w + 1) = _
    simp only [int_cont_spec_go]
    by_cases h : 128 ≤ w + 1
    · simp only [if_pos h]
      have hlt := shiftRight_seven_lt (w + 1) h
      rw [int_cont_spec_go_congr w ((w+1) >>> 7) ((w+1) >>> 7) (by omega) (by omega)]
      rfl
    · simp only [if_neg h]

lemma or128_mod (v : Nat) : 0x80 ||| v % 256 = 0x80 ||| (v &&& 0x7f) := by
  apply Nat.eq_of_testBit_eq
  intro i
  have h256 : (256 : Nat) = 2 ^ 8 := by norm_num
  have h128 : (0x80 : Nat) = 2 ^ 7 := by norm_num
  have h127 : (0x7f : Nat) = 2 ^ 7 - 1 := by norm_num
  simp only [Nat.testBit_or, Nat.testBit_and, h256, h128, h127,
    Nat.testBit_mod_two_pow, Nat.testBit_two_pow, Nat.testBit_two_pow_sub_one]
  rcases Nat.lt_trichotomy i 7 with hi | hi | hi
  · simp [show 7 ≠ i by omega, show i < 8 by omega, hi]
  · simp [hi]
  · simp [show 7 ≠ i by omega, show ¬ i < 8 by omega, show ¬ i < 7 by omega]

lemma encode_int_loop_eq_spec (v : Nat) : encode_int_loop v = int_cont_spec v := by
  induction v using Nat.strong_induction_on with
  | _ v ih =>
    rw [encode_int_loop_unfold, int_cont_spec_unfold]
    by_cases h : 128 ≤ v
    · simp only [if_pos h]
      rw [or128_mod, ih (v >>> 7) (shiftRight_seven_lt v h)]
    · simp only [if_neg h]
      rw [Nat.mod_eq_of_lt (by omega)]

lemma two_pow_le_256 {N : Nat} (hN : N ≤ 8) : 2 ^ N ≤ 256 := by
  calc 2 ^ N ≤ 2 ^ 8 := Nat.pow_le_pow_right (by norm_num) hN
  _ = 256 := by norm_num

/-- C4: the integer codec matches the spec's reference algorithm.  For a prefix
of `N ≤ 8` bits and `V ≤ 0x0FFF_FFFF` (the spec's input constraint): if
`V < 2^N - 1` a single byte `B ||| V` is emitted; otherwise `B ||| (2^N - 1)`
followed by the spec's continuation loop applied to `V - (2^N - 1)`; and
`encode_int_one_byte V N` returns true exactly when `V < 2^N - 1`. -/
theorem encode_int_matches_reference (V N B : Nat) (hN : N ≤ 8) (hV : V ≤ 0x0fffffff) :
    (V < 2 ^ N - 1 → encode_int V N B = some [B ||| V])
  ∧ (¬ V < 2 ^ N - 1 →
      encode_int V N B = some ((B ||| (2 ^ N - 1)) :: int_cont_spec (V - (2 ^ N - 1))))
  ∧ (encode_int_one_byte V N = true ↔ V < 2 ^ N - 1) := by
  have hsl : (1 <<< N) = 2 ^ N := by rw [Nat.shiftLeft_eq, Nat.one_mul]
  have h256 := two_pow_le_256 hN
  refine ⟨?_, ?_, ?_⟩
  · intro h
    have hb : encode_int_one_byte V N = true := by
      simp [encode_int_one_byte, hsl, h]
    have hVmod : V % 256 = V := Nat.mod_eq_of_lt (by omega)
    simp [encode_int, hb, hVmod]
  · intro h
    have hb : ¬ encode_int_one_byte V N = true := by
      simp [encode_int_one_byte, hsl, h]
    have hlow : (2 ^ N - 1) % 256 = 2 ^ N - 1 := Nat.mod_eq_of_lt (by omega)
    have hrange : ¬ V - (1 <<< N - 1) > 0x0fffffff := by omega
    simp [encode_int, hb, hrange, hsl, hlow, encode_int_loop_eq_spec]
    exact le_trans hV (Nat.le_add_right _ _)
  · simp [encode_int_one_byte, hsl]

/-- Witness for C4 at `V = 300`, `N = 7`, `B = 0x80` (the multi-byte branch). -/
theorem encode_int_matches_reference_witness :
    ¬ (300 : Nat) < 2 ^ 7 - 1 ∧
    encode_int 300 7 0x80 =
      some ((0x80 ||| (2 ^ 7 - 1)) :: int_cont_spec (300 - (2 ^ 7 - 1))) :=
  ⟨by norm_num,
   (encode_int_matches_reference 300 7 0x80 (by norm_num) (by norm_num)).2.1 (by norm_num)⟩

/-- C8 counterexample: `0x1000007E > 0x0FFF_FFFF`, yet `encode_int` with a
7-bit prefix does not panic on it, because the source subtracts `2^N - 1`
before performing the range check. -/
theorem encode_int_overflow_cex :
    0x0fffffff < (0x1000007e : Nat) ∧ encode_int 0x1000007e 7 0x80 ≠ none := by
  exact ⟨by norm_num, by decide⟩

/-- C8 amended: `encode_int V N B` panics exactly when the value does not fit
in one byte and `V - (2^N - 1)` (not `V` itself) exceeds `0x0FFF_FFFF`; in
particular it never panics when `V ≤ 0x0FFF_FFFF`. -/
theorem encode_int_panic_iff (V N B : Nat) :
    (encode_int V N B = none ↔ ¬ V < 2 ^ N - 1 ∧ 0x0fffffff < V - (2 ^ N - 1))
  ∧ (V ≤ 0x0fffffff → encode_int V N B ≠ none) := by
  have hsl : (1 <<< N) = 2 ^ N := by rw [Nat.shiftLeft_eq, Nat.one_mul]
  constructor
  · by_cases hb : encode_int_one_byte V N = true
    · have hlt : V < 2 ^ N - 1 := by
        simpa [encode_int_one_byte, hsl] using hb
      simp [encode_int, hb, hlt]
    · have hlt : ¬ V < 2 ^ N - 1 := by
        simpa [encode_int_one_byte, hsl] using hb
      by_cases hr : V - (1 <<< N - 1) > 0x0fffffff
      · simp only [encode_int, hb, if_false, Bool.false_eq_true]
        simp [hr, hlt, hsl] at *
        omega
      · simp only [encode_int, hb, if_false, Bool.false_eq_true]
        simp [hr, hlt, hsl] at *
        omega
  · intro hV
    by_cases hb : encode_int_one_byte V N = true
    · simp [encode_int, hb]
    · have hr : ¬ V - (1 <<< N - 1) > 0x0fffffff := by omega
      simp [encode_int, hb, hr]

/-- Witness for the amended C8 at `V = 5`, `N = 5`, `B = 0`. -/
theorem encode_int_panic_iff_witness :
    (5 : Nat) ≤ 0x0fffffff ∧ encode_int 5 5 0 ≠ none :=
  ⟨by norm_num, (encode_int_panic_iff 5 5 0).2 (by norm_num)⟩

/-- The in-place shifting loop of `encode_str`: the source's
`for i in 0..huff_len` loop performing `dst[idx + head_len + j] =
dst[idx + 1 + j]` for `j = huff_len - (i+1)`, i.e. for `j` descending from
`huff_len - 1` to `0`.  The numeric argument is the number of iterations left;
each step performs the write for the largest remaining offset, which is
exactly the source's iteration order. -/
def shift_loop (idx head_len : Nat) : List Nat → Nat → List Nat
  | d, 0 => d
  | d, j + 1 =>
    shift_loop idx head_len (d.set (idx + head_len + j) (d.getD (idx + 1 + j) 0)) j

/-- The head-copying loop of `encode_str`: `for i in 0..head_len`
`dst[idx + i] = buf[i]`, ascending.  The first numeric argument is `i`, the
last is the number of iterations left. -/
def copy_loop (idx : Nat) (buf : List Nat) : Nat → List Nat → Nat → List Nat
  | _, d, 0 => d
  | i, d, k + 1 => copy_loop idx buf (i + 1) (d.set (idx + i) (buf.getD i 0)) k

/-- `encode_str` from the source, parameterised by the external Huffman
codec `huff` (a pure function, per the spec's collaborator contract).  The
placeholder byte push, the Huffman append, the one-byte head patch, and the
multi-byte reserve/shift/copy sequence follow the source line by line.  The
8-byte scratch buffer holds the bytes of `encode_int huff_len 7 0x80`
(`head`); `put_slice(&buf[1..head_len])` is `head.drop 1`, and a cursor
overflow (more than 8 head bytes, a panic in the source) is `none`. -/
def encode_str (huff : List Nat → List Nat) (val dst : List Nat) : Option (List Nat) :=
  if val.length ≠ 0 then
    let idx := dst.length
    let d1 := dst ++ [0] ++ huff val
    let huff_len := d1.length - (idx + 1)
    if encode_int_one_byte huff_len 7 then
      some (d1.set idx (0x80 ||| huff_len % 256))
    else
      match encode_int huff_len 7 0x80 with
      | none => none
      | some head =>
        if head.length ≤ 8 then
          some (copy_loop idx head 0 (shift_loop idx head.length (d1 ++ head.drop 1) huff_len)
            head.length)
        else none
  else
    some (dst ++ [0])

/-- The naive string encoding, following the spec's words (4.2): for a
non-empty input, the 7-bit-prefix encoding of the Huffman length with base
`0x80` followed by the Huffman bytes; for the empty input a single `0x00`. -/
def encode_str_spec (huff : List Nat → List Nat) (val dst : List Nat) : Option (List Nat) :=
  if val.length ≠ 0 then
    (encode_int (huff val).length 7 0x80).map fun head => dst ++ head ++ huff val
  else
    some (dst ++ [0])

lemma getD_append_right' (a b : List Nat) (n d : Nat) :
    (a ++ b).getD (a.length + n) d = b.getD n d := by
  induction a with
  | nil => simp
  | cons x t ih =>
    have h : t.length + 1 + n = (t.length + n) + 1 := by omega
    simp only [List.cons_append, List.length_cons, h, List.getD_cons_succ]
    exact ih

lemma getD_append_left' (a b : List Nat) (n d : Nat) (h : n < a.length) :
    (a ++ b).getD n d = a.getD n d := by
  simp only [List.getD_eq_getElem?_getD]
  rw [List.getElem?_append_left h]

lemma getD_take' (l : List Nat) (k n d : Nat) (h : n < k) :
    (l.take k).getD n d = l.getD n d := by
  simp only [List.getD_eq_getElem?_getD]
  rw [List.getElem?_take_of_lt h]

lemma set_append_right' (a b : List Nat) (n : Nat) (x : Nat) :
    (a ++ b).set (a.length + n) x = a ++ b.set n x := by
  rw [List.set_append_right _ _ (Nat.le_add_right _ _), Nat.add_sub_cancel_left]

lemma set_append_len (a b : List Nat) (x : Nat) :
    (a ++ b).set a.length x = a ++ b.set 0 x := by
  exact set_append_right' a b 0 x

lemma take_succ_getD' (l : List Nat) (k : Nat) (h : k < l.length) :
    l.take (k + 1) = l.take k ++ [l.getD k 0] := by
  have hx : l[k]? = some l[k] := List.getElem?_eq_getElem h
  rw [List.take_succ, hx]
  simp [List.getD_eq_getElem?_getD, hx]

lemma drop_getD_cons' (l : List Nat) (m : Nat) (h : m < l.length) :
    l.drop m = l.getD m 0 :: l.drop (m + 1) := by
  rw [List.drop_eq_getElem_cons h]
  simp [List.getD_eq_getElem?_getD, List.getElem?_eq_getElem h]

lemma shift_loop_shift (A hv tl : List Nat) (L : Nat) (hL : 1 ≤ L)
    (htl : tl.length = L - 1) :
    ∀ m, m ≤ hv.length →
      shift_loop A.length L (A ++ 0 :: ((hv ++ tl).take (L - 1 + m) ++ hv.drop m)) m
        = A ++ 0 :: ((hv ++ tl).take (L - 1) ++ hv) := by
  intro m
  induction m with
  | zero =>
    intro _
    simp [shift_loop]
  | succ m ih =>
    intro hm
    have hmH : m < hv.length := by omega
    have hXlen : (hv ++ tl).length = hv.length + (L - 1) := by simp [htl]
    have hread :
        (A ++ 0 :: ((hv ++ tl).take (L - 1 + (m + 1)) ++ hv.drop (m + 1))).getD
            (A.length + 1 + m) 0
          = hv.getD m 0 := by
      have h1 : A.length + 1 + m = A.length + (1 + m) := by omega
      rw [h1, getD_append_right']
      have h2 : 1 + m = m + 1 := by omega
      rw [h2, List.getD_cons_succ]
      have hlt : m < ((hv ++ tl).take (L - 1 + (m + 1))).length := by
        simp only [List.length_take, hXlen]
        omega
      rw [getD_append_left' _ _ _ _ hlt, getD_take' _ _ _ _ (by omega),
        getD_append_left' _ _ _ _ hmH]
    have hwrite :
        (A ++ 0 :: ((hv ++ tl).take (L - 1 + (m + 1)) ++ hv.drop (m + 1))).set
            (A.length + L + m) (hv.getD m 0)
          = A ++ 0 :: ((hv ++ tl).take (L - 1 + m) ++ hv.drop m) := by
      have h1 : A.length + L + m = A.length + (L + m) := by omega
      rw [h1, set_append_right']
      have h2 : L + m = (L - 1 + m) + 1 := by omega
      rw [h2, List.set_cons_succ]
      have h3 : L - 1 + (m + 1) = (L - 1 + m) + 1 := by omega
      rw [h3]
      have h4 : L - 1 + m < (hv ++ tl).length := by omega
      rw [take_succ_getD' _ _ h4]
      have hPlen : ((hv ++ tl).take (L - 1 + m)).length = L - 1 + m := by
        simp only [List.length_take, hXlen]
        omega
      rw [List.append_assoc]
      rw [List.set_append_right _ _ (by omega : ((hv ++ tl).take (L - 1 + m)).length ≤ L - 1 + m)]
      rw [show L - 1 + m - ((hv ++ tl).take (L - 1 + m)).length = 0 from by omega]
      simp only [List.cons_append, List.nil_append, List.set_cons_zero]
      rw [← drop_getD_cons' hv m hmH]
    simp only [shift_loop]
    rw [hread, hwrite]
    exact ih (by omega)

lemma copy_loop_copy (A rest buf : List Nat) :
    ∀ k i mid, mid.length = k → i + k ≤ buf.length →
      copy_loop A.length buf i (A ++ (buf.take i ++ (mid ++ rest))) k
        = A ++ (buf.take (i + k) ++ rest) := by
  intro k
  induction k with
  | zero =>
    intro i mid hmid _
    have hnil : mid = [] := List.eq_nil_of_length_eq_zero hmid
    subst hnil
    simp [copy_loop]
  | succ k ih =>
    intro i mid hmid hik
    cases mid with
    | nil => simp at hmid
    | cons m0 mid' =>
      have hi : i < buf.length := by omega
      have hPlen : (buf.take i).length = i := by
        simp only [List.length_take]
        omega
      have hset :
          (A ++ (buf.take i ++ ((m0 :: mid') ++ rest))).set (A.length + i) (buf.getD i 0)
            = A ++ (buf.take (i + 1) ++ (mid' ++ rest)) := by
        rw [set_append_right']
        rw [List.set_append_right _ _ (by omega : (buf.take i).length ≤ i)]
        rw [show i - (buf.take i).length = 0 from by omega]
        simp only [List.cons_append, List.set_cons_zero]
        rw [take_succ_getD' _ _ hi]
        simp
      simp only [copy_loop]
      rw [hset]
      have := ih (i + 1) mid' (by simpa using hmid) (by omega)
      rw [this, show i + 1 + k = i + (k + 1) from by omega]

lemma encode_str_eq_naive (huff : List Nat → List Nat) (val dst : List Nat) :
    encode_str huff val dst = encode_str_spec huff val dst := by
  by_cases hval : val.length ≠ 0
  · simp only [encode_str, encode_str_spec, if_pos hval]
    have hlen : (dst ++ [0] ++ huff val).length - (dst.length + 1) = (huff val).length := by
      simp
      omega
    rw [hlen]
    by_cases hob : encode_int_one_byte (huff val).length 7 = true
    · rw [if_pos hob]
      have hei : encode_int (huff val).length 7 0x80
          = some [0x80 ||| (huff val).length % 256] := by
        simp [encode_int, hob]
      rw [hei]
      rw [List.append_assoc, set_append_len]
      simp
    · rw [if_neg hob]
      cases hei : encode_int (huff val).length 7 0x80 with
      | none => simp
      | some head =>
        have hhead : head = 255 :: encode_int_loop ((huff val).length - 127)
            ∧ (huff val).length - 127 ≤ 0x0fffffff := by
          rw [encode_int, if_neg hob] at hei
          simp at hei
          exact ⟨hei.2.symm, by omega⟩
        have hL1 : 1 ≤ head.length := by
          rw [hhead.1]
          simp
        have hlen5 : head.length ≤ 5 := by
          have hloop := encode_int_loop_length 3 ((huff val).length - 127)
            (by norm_num; omega)
          rw [hhead.1]
          simp only [List.length_cons]
          omega
        dsimp only
        rw [if_pos (show head.length ≤ 8 from by omega)]
        have htl : (head.drop 1).length = head.length - 1 := by simp
        have hform : dst ++ [0] ++ huff val ++ head.drop 1
            = dst ++ 0 :: ((huff val ++ head.drop 1).take
                (head.length - 1 + (huff val).length) ++ (huff val).drop (huff val).length) := by
          rw [List.drop_length]
          rw [List.take_of_length_le (by simp only [List.length_append, htl]; omega)]
          simp
        rw [hform]
        rw [shift_loop_shift dst (huff val) (head.drop 1) head.length hL1 htl
          (huff val).length (le_refl _)]
        have hmid : (0 :: (huff val ++ head.drop 1).take (head.length - 1)).length
            = head.length := by
          simp only [List.length_cons, List.length_take, List.length_append, htl]
          omega
        have hcopy := copy_loop_copy dst (huff val) head head.length 0
          (0 :: (huff val ++ head.drop 1).take (head.length - 1)) hmid (by omega)
        simp only [List.take_zero, List.nil_append, List.cons_append, Nat.zero_add] at hcopy
        rw [hcopy, List.take_of_length_le (le_refl _)]
        simp
  · simp only [encode_str, encode_str_spec, if_neg hval]

lemma encode_str_factor (huff : List Nat → List Nat) (val dst : List Nat) :
    encode_str huff val dst = (encode_str huff val []).map (dst ++ ·) := by
  rw [encode_str_eq_naive, encode_str_eq_naive]
  unfold encode_str_spec
  by_cases hval : val.length ≠ 0
  · simp only [if_pos hval]
    cases encode_int (huff val).length 7 0x80 <;> simp
  · simp only [if_neg hval]
    simp

/-- The identity function used as a concrete stand-in for the external
Huffman codec in witnesses (the development is parametric in the codec). -/
def huff_id : List Nat → List Nat := fun l => l

/-- C5: the string codec's in-place head patching is equivalent to the naive
encoding: for non-empty `val` it appends the 7-bit-prefix encoding of the
Huffman length with base `0x80` followed by the Huffman bytes of `val`, and
for empty `val` exactly the single byte `0x00`. -/
theorem encode_str_refines_naive (huff : List Nat → List Nat) (val dst : List Nat) :
    encode_str huff val dst = encode_str_spec huff val dst :=
  encode_str_eq_naive huff val dst

/-- C9 counterexample: for the empty input `encode_str` writes the single
head byte `0x00`, whose high bit is clear, refuting the claim that the head
byte's high bit is set for every input including the empty string. -/
theorem encode_str_empty_head_cex :
    encode_str huff_id [] [] = some [0x00] ∧ Nat.testBit 0x00 7 = false :=
  ⟨rfl, by decide⟩

/-- C9 amended: for every *non-empty* input, a successful `encode_str` writes
a head byte (at position `dst.length`) with the high (Huffman-flag) bit set;
the empty input instead emits the single byte `0x00`. -/
theorem encode_str_head_flag (huff : List Nat → List Nat) (val dst out : List Nat) :
    (val ≠ [] → encode_str huff val dst = some out →
      Nat.testBit (out.getD dst.length 0) 7 = true)
  ∧ encode_str huff [] dst = some (dst ++ [0x00]) := by
  constructor
  · intro hne hout
    rw [encode_str_eq_naive] at hout
    have hval : val.length ≠ 0 := by simpa using hne
    rw [encode_str_spec, if_pos hval] at hout
    cases hei : encode_int (huff val).length 7 0x80 with
    | none =>
      rw [hei] at hout
      simp at hout
    | some head =>
      rw [hei] at hout
      simp only [Option.map_some', Option.some.injEq] at hout
      have hfb : Nat.testBit (head.getD 0 0) 7 = true := by
        rw [encode_int] at hei
        by_cases hob : encode_int_one_byte (huff val).length 7 = true
        · rw [if_pos hob] at hei
          simp only [Option.some.injEq] at hei
          rw [← hei]
          simp only [List.getD_cons_zero, Nat.testBit_or]
          rw [show Nat.testBit 0x80 7 = true from by decide]
          simp
        · rw [if_neg hob] at hei
          simp at hei
          rw [← hei.2]
          simp only [List.getD_cons_zero]
          decide
      have hne' : head ≠ [] := by
        intro hnil
        rw [hnil] at hfb
        simp at hfb
      rw [← hout, List.append_assoc]
      have hg : (dst ++ (head ++ huff val)).getD dst.length 0 = (head ++ huff val).getD 0 0 := by
        simpa using getD_append_right' dst (head ++ huff val) 0 0
      rw [hg]
      cases head with
      | nil => exact absurd rfl hne'
      | cons b t => simpa using hfb
  · rw [encode_str_eq_naive]
    simp [encode_str_spec]

/-- Witness for the amended C9 at `val = [1]`, `dst = []`. -/
theorem encode_str_head_flag_witness :
    ([1] : List Nat) ≠ [] ∧ encode_str huff_id [1] [] = some [0x81, 1] ∧
    Nat.testBit (([0x81, 1] : List Nat).getD 0 0) 7 = true :=
  ⟨by decide, by rfl,
   (encode_str_head_flag huff_id [1] [] [0x81, 1]).1 (by decide) (by rfl)⟩

/-- ASCII bytes of a string, for header names and values. -/
def ascii (s : String) : List Nat := s.data.map Char.toNat

/-- Modelled from the spec: a header presented to the encoder.  The source's
`Header` type (in the hpack module, not under `src/`) distinguishes
pseudo-header variants from `Field`; per spec section 3 every variant carries
name bytes, value bytes and a `sensitive` flag, which is all the encoder
consults. -/
structure Header where
  name : List Nat
  value : List Nat
  sensitive : Bool
deriving DecidableEq

/-- The outcome type returned by `Table::index` (the source's `Index` enum,
whose variants appear in `encode_header`'s match). -/
inductive Index where
  | indexed : Nat → Header → Index
  | name : Nat → Header → Index
  | inserted : Header → Index
  | insertedValue : Nat → Header → Index
  | notIndexed : Header → Index
deriving DecidableEq

/-- Modelled from the spec: the RFC 7541 Appendix A static table (61 entries,
composite indices 1..61), fixed verbatim by spec section 6. -/
def static_table : List (List Nat × List Nat) := [
  (ascii ":authority", []),
  (ascii ":method", ascii "GET"),
  (ascii ":method", ascii "POST"),
  (ascii ":path", ascii "/"),
  (ascii ":path", ascii "/index.html"),
  (ascii ":scheme", ascii "http"),
  (ascii ":scheme", ascii "https"),
  (ascii ":status", ascii "200"),
  (ascii ":status", ascii "204"),
  (ascii ":status", ascii "206"),
  (ascii ":status", ascii "304"),
  (ascii ":status", ascii "400"),
  (ascii ":status", ascii "404"),
  (ascii ":status", ascii "500"),
  (ascii "accept-charset", []),
  (ascii "accept-encoding", ascii "gzip, deflate"),
  (ascii "accept-language", []),
  (ascii "accept-ranges", []),
  (ascii "accept", []),
  (ascii "access-control-allow-origin", []),
  (ascii "age", []),
  (ascii "allow", []),
  (ascii "authorization", []),
  (ascii "cache-control", []),
  (ascii "content-disposition", []),
  (ascii "content-encoding", []),
  (ascii "content-language", []),
  (ascii "content-length", []),
  (ascii "content-location", []),
  (ascii "content-range", []),
  (ascii "content-type", []),
  (ascii "cookie", []),
  (ascii "date", []),
  (ascii "etag", []),
  (ascii "expect", []),
  (ascii "expires", []),
  (ascii "from", []),
  (ascii "host", []),
  (ascii "if-match", []),
  (ascii "if-modified-since", []),
  (ascii "if-none-match", []),
  (ascii "if-range", []),
  (ascii "if-unmodified-since", []),
  (ascii "last-modified", []),
  (ascii "link", []),
  (ascii "location", []),
  (ascii "max-forwards", []),
  (ascii "proxy-authenticate", []),
  (ascii "proxy-authorization", []),
  (ascii "range", []),
  (ascii "referer", []),
  (ascii "refresh", []),
  (ascii "retry-after", []),
  (ascii "server", []),
  (ascii "set-cookie", []),
  (ascii "strict-transport-security", []),
  (ascii "transfer-encoding", []),
  (ascii "user-agent", []),
  (ascii "vary", []),
  (ascii "via", []),
  (ascii "www-authenticate", [])
]

/-- Modelled from the spec: the composite table state (spec sections 3 and
4.3).  `max_size` is the current dynamic-table size bound, `capacity` the
second constructor argument (kept in the state so the construction-time value
is observable), and `entries` the dynamic entries, most recent first (the
head has composite index 62).  The source's own tests show `max_size` is not
clamped by `capacity` (`Encoder::default()` is `new(4096, 0)` and asserts
`table.max_size() == 4096`), so resizing only sets `max_size` and evicts. -/
structure Table where
  max_size : Nat
  capacity : Nat
  entries : List (List Nat × List Nat)
deriving DecidableEq

/-- `Table::new` per the spec's construction contract. -/
def Table.new (max_size capacity : Nat) : Table := ⟨max_size, capacity, []⟩

/-- Entry size per RFC 7541 section 4.1 / spec section 3: name length plus
value length plus 32. -/
def entry_size (e : List Nat × List Nat) : Nat := e.1.length + e.2.length + 32

/-- Total size of the dynamic entries. -/
def dyn_size (es : List (List Nat × List Nat)) : Nat := (es.map entry_size).sum

/-- Modelled from the spec: evict oldest entries (the tail of the list) until
the dynamic size is at most `m` (spec 4.3).  The fuel argument (the list
length at the call sites) bounds the iterations; each iteration drops one
entry, so the fuel is always sufficient. -/
def evict_go : Nat → List (List Nat × List Nat) → Nat → List (List Nat × List Nat)
  | 0, es, _ => es
  | fuel + 1, es, m => if dyn_size es ≤ m then es else evict_go fuel es.dropLast m

/-- Modelled from the spec: `resize(new_max)` sets `max_size` and evicts
oldest-first until the size invariant holds (spec 4.3). -/
def Table.resize (t : Table) (new_max : Nat) : Table :=
  { t with max_size := new_max, entries := evict_go t.entries.length t.entries new_max }

/-- Modelled from the spec: insert a (name, value) entry, evicting oldest
entries first so that `size + s <= max_size`; the insertion is skipped when
the entry alone exceeds `max_size` (spec 4.3). -/
def Table.insert_entry (t : Table) (n v : List Nat) : Table :=
  if entry_size (n, v) ≤ t.max_size then
    { t with entries :=
        (n, v) :: evict_go t.entries.length t.entries (t.max_size - entry_size (n, v)) }
  else t

/-- Modelled from the spec: smallest composite index whose entry matches both
name and value — static 1..61 first, then dynamic 62.. by recency
(spec 4.3). -/
def Table.find_full (t : Table) (n v : List Nat) : Option Nat :=
  match static_table.findIdx? (fun e => e.1 == n && e.2 == v) with
  | some i => some (i + 1)
  | none =>
    match t.entries.findIdx? (fun e => e.1 == n && e.2 == v) with
    | some i => some (i + 62)
    | none => none

/-- Modelled from the spec: smallest composite index whose entry has the
given name (spec 4.3). -/
def Table.find_name (t : Table) (n : List Nat) : Option Nat :=
  match static_table.findIdx? (fun e => e.1 == n) with
  | some i => some (i + 1)
  | none =>
    match t.entries.findIdx? (fun e => e.1 == n) with
    | some i => some (i + 62)
    | none => none

/-- Modelled from the spec: the never-index name set of spec 4.4 rule 2.  The
spec fixes `content-length`, `date`, `authorization` and `set-cookie` and
leaves "cookies with short, high-entropy values" as unquantified policy; the
model uses the four fixed names. -/
def never_index (h : Header) : Bool :=
  h.name == ascii "content-length" || h.name == ascii "date" ||
  h.name == ascii "authorization" || h.name == ascii "set-cookie"

/-- Modelled from the spec: `Table::index` (not under `src/`), the indexing
policy of spec 4.4 with decision rules 1-7 applied in order; returns the
outcome together with the updated table. -/
def Table.index (t : Table) (h : Header) : Index × Table :=
  if h.sensitive then
    match t.find_name h.name with
    | some i => (Index.name i h, t)
    | none => (Index.notIndexed h, t)
  else if never_index h then
    match t.find_name h.name with
    | some i => (Index.name i h, t)
    | none => (Index.notIndexed h, t)
  else
    match t.find_full h.name h.value with
    | some i => (Index.indexed i h, t)
    | none =>
      match t.find_name h.name with
      | some i =>
        if entry_size (h.name, h.value) ≤ t.max_size then
          (Index.insertedValue i h, t.insert_entry h.name h.value)
        else
          (Index.name i h, t)
      | none =>
        if entry_size (h.name, h.value) ≤ t.max_size then
          (Index.inserted h, t.insert_entry h.name h.value)
        else
          (Index.notIndexed h, t)

/-- `SizeUpdate` from the source (`two` records min then max). -/
inductive SizeUpdate where
  | one : Nat → SizeUpdate
  | two : Nat → Nat → SizeUpdate
deriving DecidableEq

/-- The encoder state from the source: the table and the pending size
update. -/
structure Encoder where
  table : Table
  size_update : Option SizeUpdate
deriving DecidableEq

/-- `Encoder::new` from the source. -/
def Encoder.new (max_size capacity : Nat) : Encoder :=
  ⟨Table.new max_size capacity, none⟩

/-- `Encoder::update_max_size` from the source, translated arm by arm. -/
def Encoder.update_max_size (e : Encoder) (val : Nat) : Encoder :=
  match e.size_update with
  | some (SizeUpdate.one old) =>
    if val > old then
      if old > e.table.max_size then
        { e with size_update := some (SizeUpdate.one val) }
      else
        { e with size_update := some (SizeUpdate.two old val) }
    else
      { e with size_update := some (SizeUpdate.one val) }
  | some (SizeUpdate.two mn _) =>
    if val < mn then
      { e with size_update := some (SizeUpdate.one val) }
    else
      { e with size_update := some (SizeUpdate.two mn val) }
  | none =>
    if val ≠ e.table.max_size then
      { e with size_update := some (SizeUpdate.one val) }
    else
      e

/-- The serialization arms of `Encoder::encode_header` (the source's `match`
on the outcome of `table.index`); each `assert!(!header.is_sensitive())` is
modelled as `none` when it would fire. -/
def serialize_outcome (huff : List Nat → List Nat) (o : Index) (dst : List Nat) :
    Option (List Nat) :=
  match o with
  | Index.indexed idx h =>
    if h.sensitive then none
    else (encode_int idx 7 0x80).map (dst ++ ·)
  | Index.name idx h =>
    match encode_int idx 4 (if h.sensitive then 0b10000 else 0) with
    | none => none
    | some ib => encode_str huff h.value (dst ++ ib)
  | Index.inserted h =>
    if h.sensitive then none
    else
      match encode_str huff h.name (dst ++ [0b01000000]) with
      | none => none
      | some d => encode_str huff h.value d
  | Index.insertedValue idx h =>
    if h.sensitive then none
    else
      match encode_int idx 6 0b01000000 with
      | none => none
      | some ib => encode_str huff h.value (dst ++ ib)
  | Index.notIndexed h =>
    match encode_str huff h.name (dst ++ [if h.sensitive then 0b10000 else 0]) with
    | none => none
    | some d => encode_str huff h.value d

/-- `Encoder::encode_header` from the source: consult the table (which may
insert) and serialize the outcome. -/
def Encoder.encode_header (huff : List Nat → List Nat) (e : Encoder) (h : Header)
    (dst : List Nat) : Option (Encoder × List Nat) :=
  match serialize_outcome huff (e.table.index h).1 dst with
  | none => none
  | some d => some ({ e with table := (e.table.index h).2 }, d)

/-- The `for h in headers` loop of `Encoder::encode`. -/
def encode_headers (huff : List Nat → List Nat) :
    Encoder → List Header → List Nat → Option (Encoder × List Nat)
  | e, [], dst => some (e, dst)
  | e, h :: hs, dst =>
    match Encoder.encode_header huff e h dst with
    | none => none
    | some (e1, d1) => encode_headers huff e1 hs d1

/-- The per-header byte strings of a batch, in input order, each rendered
into an empty buffer; used below to state that `encode` appends exactly these
encodings in iteration order. -/
def encode_header_block (huff : List Nat → List Nat) :
    Encoder → List Header → Option (Encoder × List (List Nat))
  | e, [] => some (e, [])
  | e, h :: hs =>
    match Encoder.encode_header huff e h [] with
    | none => none
    | some (e1, b) =>
      match encode_header_block huff e1 hs with
      | none => none
      | some (e2, bs) => some (e2, b :: bs)

/-- `Encoder::encode` from the source: `size_update.take()`, resize and emit
the frame(s) for the pending update, then encode the headers in order. -/
def Encoder.encode (huff : List Nat → List Nat) (e : Encoder) (headers : List Header)
    (dst : List Nat) : Option (Encoder × List Nat) :=
  match e.size_update with
  | some (SizeUpdate.one v) =>
    match encode_size_update v with
    | none => none
    | some f => encode_headers huff ⟨e.table.resize v, none⟩ headers (dst ++ f)
  | some (SizeUpdate.two mn mx) =>
    match encode_size_update mn, encode_size_update mx with
    | some f1, some f2 =>
      encode_headers huff ⟨(e.table.resize mn).resize mx, none⟩ headers (dst ++ f1 ++ f2)
    | _, _ => none
  | none => encode_headers huff ⟨e.table, none⟩ headers dst

lemma encode_str_shift (huff : List Nat → List Nat) (v a b : List Nat) :
    encode_str huff v (a ++ b) = (encode_str huff v b).map (a ++ ·) := by
  rw [encode_str_factor huff v (a ++ b), encode_str_factor huff v b]
  cases encode_str huff v [] <;> simp

lemma serialize_factor (huff : List Nat → List Nat) (o : Index) (dst : List Nat) :
    serialize_outcome huff o dst = (serialize_outcome huff o []).map (dst ++ ·) := by
  cases o with
  | indexed idx h =>
    by_cases hs : h.sensitive
    · simp [serialize_outcome, hs]
    · simp only [serialize_outcome, if_neg hs]
      cases encode_int idx 7 0x80 <;> simp
  | name idx h =>
    simp only [serialize_outcome]
    cases encode_int idx 4 (if h.sensitive then 0b10000 else 0) with
    | none => simp
    | some ib =>
      dsimp only
      simp only [List.nil_append]
      rw [encode_str_shift huff h.value dst ib]
  | inserted h =>
    by_cases hs : h.sensitive
    · simp [serialize_outcome, hs]
    · simp only [serialize_outcome, if_neg hs, List.nil_append]
      rw [encode_str_shift huff h.name dst [0b01000000]]
      cases encode_str huff h.name [0b01000000] with
      | none => simp
      | some d =>
        simp only [Option.map_some']
        rw [encode_str_shift huff h.value dst d]
  | insertedValue idx h =>
    by_cases hs : h.sensitive
    · simp [serialize_outcome, hs]
    · simp only [serialize_outcome, if_neg hs]
      cases encode_int idx 6 0b01000000 with
      | none => simp
      | some ib =>
        dsimp only
        simp only [List.nil_append]
        rw [encode_str_shift huff h.value dst ib]
  | notIndexed h =>
    simp only [serialize_outcome, List.nil_append]
    rw [encode_str_shift huff h.name dst [if h.sensitive then 0b10000 else 0]]
    cases encode_str huff h.name [if h.sensitive then 0b10000 else 0] with
    | none => simp
    | some d =>
      simp only [Option.map_some']
      rw [encode_str_shift huff h.value dst d]

lemma encode_header_factor (huff : List Nat → List Nat) (e : Encoder) (h : Header)
    (dst : List Nat) :
    Encoder.encode_header huff e h dst
      = (Encoder.encode_header huff e h []).map (fun p => (p.1, dst ++ p.2)) := by
  unfold Encoder.encode_header
  rw [serialize_factor]
  cases serialize_outcome huff (e.table.index h).1 [] <;> simp

lemma encode_headers_eq_block (huff : List Nat → List Nat) :
    ∀ (hs : List Header) (e : Encoder) (dst : List Nat),
      encode_headers huff e hs dst
        = (encode_header_block huff e hs).map (fun p => (p.1, dst ++ p.2.flatten)) := by
  intro hs
  induction hs with
  | nil =>
    intro e dst
    simp [encode_headers, encode_header_block]
  | cons h t ih =>
    intro e dst
    simp only [encode_headers, encode_header_block]
    rw [encode_header_factor]
    cases hh : Encoder.encode_header huff e h [] with
    | none => simp
    | some p =>
      obtain ⟨e1, b⟩ := p
      simp only [Option.map_some']
      rw [ih e1 (dst ++ b)]
      cases hb : encode_header_block huff e1 t with
      | none => simp
      | some q =>
        obtain ⟨e2, bs⟩ := q
        simp [List.append_assoc]

lemma insert_entry_fields (t : Table) (n v : List Nat) :
    (t.insert_entry n v).max_size = t.max_size ∧ (t.insert_entry n v).capacity = t.capacity := by
  unfold Table.insert_entry
  split <;> simp

lemma index_snd (t : Table) (h : Header) :
    (t.index h).2 = t ∨ (t.index h).2 = t.insert_entry h.name h.value := by
  unfold Table.index
  by_cases hs : h.sensitive
  · cases hfn : t.find_name h.name <;> simp [hs, hfn]
  · by_cases hn : never_index h
    · cases hfn : t.find_name h.name <;> simp [hs, hn, hfn]
    · cases hff : t.find_full h.name h.value with
      | some i => simp [hs, hn, hff]
      | none =>
        cases hfn : t.find_name h.name <;>
          by_cases hfit : entry_size (h.name, h.value) ≤ t.max_size <;>
            simp [hs, hn, hff, hfn, hfit]

lemma index_fields (t : Table) (h : Header) :
    (t.index h).2.max_size = t.max_size ∧ (t.index h).2.capacity = t.capacity := by
  rcases index_snd t h with he | he <;> rw [he]
  · exact ⟨rfl, rfl⟩
  · exact insert_entry_fields t h.name h.value

lemma encode_header_state (huff : List Nat → List Nat) (e : Encoder) (h : Header)
    (dst : List Nat) (e' : Encoder) (d' : List Nat) :
    Encoder.encode_header huff e h dst = some (e', d') →
      e'.size_update = e.size_update ∧ e'.table.max_size = e.table.max_size := by
  unfold Encoder.encode_header
  cases serialize_outcome huff (e.table.index h).1 dst with
  | none => simp
  | some d =>
    intro hsome
    simp only [Option.some.injEq, Prod.mk.injEq] at hsome
    rw [← hsome.1]
    exact ⟨rfl, (index_fields e.table h).1⟩

lemma encode_headers_state (huff : List Nat → List Nat) :
    ∀ (hs : List Header) (e : Encoder) (dst : List Nat) (e' : Encoder) (out : List Nat),
      encode_headers huff e hs dst = some (e', out) →
        e'.size_update = e.size_update ∧ e'.table.max_size = e.table.max_size := by
  intro hs
  induction hs with
  | nil =>
    intro e dst e' out h
    simp only [encode_headers, Option.some.injEq, Prod.mk.injEq] at h
    rw [← h.1]
    exact ⟨rfl, rfl⟩
  | cons hh t ih =>
    intro e dst e' out h
    simp only [encode_headers] at h
    cases hE : Encoder.encode_header huff e hh dst with
    | none => rw [hE] at h; simp at h
    | some p =>
      rw [hE] at h
      obtain ⟨e1, d1⟩ := p
      have h1 := encode_header_state huff e hh dst e1 d1 hE
      have h2 := ih e1 d1 e' out h
      exact ⟨h2.1.trans h1.1, h2.2.trans h1.2⟩

lemma encode_clears_pending (huff : List Nat → List Nat) (e : Encoder) (hs : List Header)
    (dst : List Nat) (e' : Encoder) (out : List Nat) :
    Encoder.encode huff e hs dst = some (e', out) → e'.size_update = none := by
  intro h
  unfold Encoder.encode at h
  cases hsu : e.size_update with
  | none =>
    rw [hsu] at h
    dsimp only at h
    exact (encode_headers_state huff hs _ dst e' out h).1
  | some su =>
    rw [hsu] at h
    cases su with
    | one v =>
      dsimp only at h
      cases hf : encode_size_update v with
      | none => rw [hf] at h; simp at h
      | some f =>
        rw [hf] at h
        dsimp only at h
        exact (encode_headers_state huff hs _ _ e' out h).1
    | two mn mx =>
      dsimp only at h
      cases hf1 : encode_size_update mn with
      | none =>
        rw [hf1] at h
        cases hf2 : encode_size_update mx with
        | none => rw [hf2] at h; simp at h
        | some f2 => rw [hf2] at h; simp at h
      | some f1 =>
        rw [hf1] at h
        cases hf2 : encode_size_update mx with
        | none => rw [hf2] at h; simp at h
        | some f2 =>
          rw [hf2] at h
          dsimp only at h
          exact (encode_headers_state huff hs _ _ e' out h).1

/-- C1: `update_max_size` implements exactly the coalescing state table of
spec 4.5: with `current = table.max_size()`, from `none` the new pending is
`none` iff `v = current` and `one v` otherwise; from `one x` it is `one v`
when `v ≤ x`, `one v` when `v > x ∧ x > current`, and `two x v` when
`v > x ∧ x ≤ current`; from `two mn mx` it is `one v` when `v < mn` and
`two mn v` otherwise. -/
theorem update_max_size_coalesces (e : Encoder) (v : Nat) :
    (e.size_update = none →
      (e.update_max_size v).size_update =
        if v = e.table.max_size then none else some (SizeUpdate.one v))
  ∧ (∀ x, e.size_update = some (SizeUpdate.one x) →
      (e.update_max_size v).size_update =
        if v ≤ x then some (SizeUpdate.one v)
        else if e.table.max_size < x then some (SizeUpdate.one v)
        else some (SizeUpdate.two x v))
  ∧ (∀ mn mx, e.size_update = some (SizeUpdate.two mn mx) →
      (e.update_max_size v).size_update =
        if v < mn then some (SizeUpdate.one v) else some (SizeUpdate.two mn v)) := by
  refine ⟨?_, ?_, ?_⟩
  · intro h
    unfold Encoder.update_max_size
    rw [h]
    by_cases hv : v = e.table.max_size
    · simp [hv, h]
    · simp [hv]
  · intro x h
    unfold Encoder.update_max_size
    rw [h]
    by_cases h1 : v ≤ x
    · have h1' : ¬ v > x := by omega
      simp [h1, h1']
    · have h1' : v > x := by omega
      by_cases h2 : e.table.max_size < x
      · have h2' : x > e.table.max_size := h2
        simp [h1, h1', h2, h2']
      · have h2' : ¬ x > e.table.max_size := by omega
        simp [h1, h1', h2, h2']
  · intro mn mx h
    unfold Encoder.update_max_size
    rw [h]
    by_cases h1 : v < mn <;> simp [h1]

/-- Witness for C1 at a fresh default-size encoder and `v = 100`. -/
theorem update_max_size_coalesces_witness :
    (Encoder.new 4096 0).size_update = none ∧
    ((Encoder.new 4096 0).update_max_size 100).size_update =
      if 100 = (Encoder.new 4096 0).table.max_size then none
      else some (SizeUpdate.one 100) :=
  ⟨rfl, (update_max_size_coalesces (Encoder.new 4096 0) 100).1 rfl⟩

/-- Encoder states reachable through the public interface: construction,
`update_max_size`, and successful `encode` calls. -/
inductive Reachable : Encoder → Prop
  | construct : ∀ m c, Reachable (Encoder.new m c)
  | step_update : ∀ e v, Reachable e → Reachable (e.update_max_size v)
  | step_encode : ∀ huff e hs dst e' out,
      Reachable e → Encoder.encode huff e hs dst = some (e', out) → Reachable e'

/-- C7 counterexample: the reachable state obtained by `update_max_size 8000`
on `Encoder::new(4096, 0)` holds pending `one 8000` although the capacity
given at construction is `0` — the source never clamps pending values to the
capacity (its own test `test_update_max_size_combos` exercises exactly
this). -/
theorem pending_capacity_cex :
    Reachable ((Encoder.new 4096 0).update_max_size 8000) ∧
    ((Encoder.new 4096 0).update_max_size 8000).size_update
      = some (SizeUpdate.one 8000) ∧
    ((Encoder.new 4096 0).update_max_size 8000).table.capacity = 0 ∧
    ¬ (8000 : Nat) ≤ 0 :=
  ⟨Reachable.step_update _ _ (Reachable.construct 4096 0), by decide, by decide, by omega⟩

/-- C7 amended: in every reachable encoder state, a pending `two mn mx`
satisfies `mn ≤ mx`.  (The original claim's bound by the construction-time
capacity does not hold; see the counterexample.) -/
theorem pending_two_ordered (e : Encoder) (he : Reachable e) :
    ∀ mn mx, e.size_update = some (SizeUpdate.two mn mx) → mn ≤ mx := by
  induction he with
  | construct m c =>
    intro mn mx h
    simp [Encoder.new] at h
  | step_update e v _ ih =>
    intro mn mx h
    unfold Encoder.update_max_size at h
    cases hsu : e.size_update with
    | none =>
      rw [hsu] at h
      dsimp only at h
      by_cases hv : v ≠ e.table.max_size
      · simp [hv] at h
      · simp only [if_neg hv] at h
        rw [hsu] at h
        simp at h
    | some su =>
      rw [hsu] at h
      cases su with
      | one old =>
        dsimp only at h
        by_cases h1 : v > old
        · by_cases h2 : old > e.table.max_size
          · simp [h1, h2] at h
          · simp only [if_pos h1, if_neg h2] at h
            simp at h
            omega
        · simp [h1] at h
      | two mn' mx' =>
        dsimp only at h
        by_cases h1 : v < mn'
        · simp [h1] at h
        · simp only [if_neg h1] at h
          simp at h
          have := ih mn' mx' hsu
          omega
  | step_encode huff e hs dst e' out _ henc ih =>
    intro mn mx h
    have hn : e'.size_update = none := encode_clears_pending huff e hs dst e' out henc
    rw [hn] at h
    exact absurd h (by simp)

/-- Witness for the amended C7 at the reachable pending state `two 0 100`
(the source test's `update_max_size(0)` then `update_max_size(100)`). -/
theorem pending_two_ordered_witness :
    (((Encoder.new 4096 0).update_max_size 0).update_max_size 100).size_update
      = some (SizeUpdate.two 0 100) ∧ (0 : Nat) ≤ 100 :=
  ⟨by decide,
   pending_two_ordered (((Encoder.new 4096 0).update_max_size 0).update_max_size 100)
     (Reachable.step_update _ 100 (Reachable.step_update _ 0 (Reachable.construct 4096 0)))
     0 100 (by decide)⟩

lemma block_state (huff : List Nat → List Nat) (hs : List Header) (e e' : Encoder)
    (bs : List (List Nat)) (h : encode_header_block huff e hs = some (e', bs)) :
    e'.size_update = e.size_update ∧ e'.table.max_size = e.table.max_size := by
  have h2 : encode_headers huff e hs [] = some (e', bs.flatten) := by
    rw [encode_headers_eq_block, h]
    simp
  exact encode_headers_state huff hs e [] e' bs.flatten h2

/-- C2: `encode(headers, dst)` first handles the pending size update, then the
headers: with pending `one v` the table is resized to `v` and one size-update
frame (5-bit prefix, base `0x20`) for `v` is appended; with pending
`two mn mx` the table is resized through `mn` to `mx` (so `max_size` is `mx`
afterwards) and the frames for `mn` then `mx` are appended; the pending update
is cleared in every case; and after the frames the per-header encodings are
appended in exactly the input iteration order (`bs` lists them per header, and
the output is their concatenation in order). -/
theorem encode_pending_then_headers (huff : List Nat → List Nat) (e : Encoder)
    (hs : List Header) (dst : List Nat) (e' : Encoder) (out : List Nat)
    (h : Encoder.encode huff e hs dst = some (e', out)) :
    e'.size_update = none
  ∧ (e.size_update = none →
      ∃ bs, encode_header_block huff ⟨e.table, none⟩ hs = some (e', bs)
        ∧ out = dst ++ bs.flatten)
  ∧ (∀ v, e.size_update = some (SizeUpdate.one v) →
      e'.table.max_size = v
      ∧ ∃ f bs, encode_int v 5 0x20 = some f
          ∧ encode_header_block huff ⟨e.table.resize v, none⟩ hs = some (e', bs)
          ∧ out = dst ++ f ++ bs.flatten)
  ∧ (∀ mn mx, e.size_update = some (SizeUpdate.two mn mx) →
      e'.table.max_size = mx
      ∧ ∃ f1 f2 bs, encode_int mn 5 0x20 = some f1 ∧ encode_int mx 5 0x20 = some f2
          ∧ encode_header_block huff ⟨(e.table.resize mn).resize mx, none⟩ hs = some (e', bs)
          ∧ out = dst ++ f1 ++ f2 ++ bs.flatten) := by
  refine ⟨encode_clears_pending huff e hs dst e' out h, ?_, ?_, ?_⟩
  · intro hsu
    unfold Encoder.encode at h
    rw [hsu] at h
    dsimp only at h
    rw [encode_headers_eq_block] at h
    cases hb : encode_header_block huff ⟨e.table, none⟩ hs with
    | none => rw [hb] at h; simp at h
    | some p =>
      obtain ⟨e2, bs⟩ := p
      rw [hb] at h
      simp only [Option.map_some', Option.some.injEq, Prod.mk.injEq] at h
      obtain ⟨h1, h2⟩ := h
      subst h1
      exact ⟨bs, rfl, h2.symm⟩
  · intro v hsu
    unfold Encoder.encode at h
    rw [hsu] at h
    dsimp only at h
    cases hf : encode_size_update v with
    | none => rw [hf] at h; simp at h
    | some f =>
      rw [hf] at h
      dsimp only at h
      rw [encode_headers_eq_block] at h
      cases hb : encode_header_block huff ⟨e.table.resize v, none⟩ hs with
      | none => rw [hb] at h; simp at h
      | some p =>
        obtain ⟨e2, bs⟩ := p
        rw [hb] at h
        simp only [Option.map_some', Option.some.injEq, Prod.mk.injEq] at h
        have hmax : e2.table.max_size = v := (block_state huff hs _ e2 bs hb).2
        obtain ⟨h1, h2⟩ := h
        subst h1
        refine ⟨hmax, f, bs, hf, rfl, ?_⟩
        rw [← h2]
  · intro mn mx hsu
    unfold Encoder.encode at h
    rw [hsu] at h
    dsimp only at h
    cases hf1 : encode_size_update mn with
    | none =>
      rw [hf1] at h
      cases hf2 : encode_size_update mx with
      | none => rw [hf2] at h; simp at h
      | some f2 => rw [hf2] at h; simp at h
    | some f1 =>
      rw [hf1] at h
      cases hf2 : encode_size_update mx with
      | none => rw [hf2] at h; simp at h
      | some f2 =>
        rw [hf2] at h
        dsimp only at h
        rw [encode_headers_eq_block] at h
        cases hb : encode_header_block huff ⟨(e.table.resize mn).resize mx, none⟩ hs with
        | none => rw [hb] at h; simp at h
        | some p =>
          obtain ⟨e2, bs⟩ := p
          rw [hb] at h
          simp only [Option.map_some', Option.some.injEq, Prod.mk.injEq] at h
          have hmax : e2.table.max_size = mx := (block_state huff hs _ e2 bs hb).2
          obtain ⟨h1, h2⟩ := h
          subst h1
          refine ⟨hmax, f1, f2, bs, hf1, hf2, rfl, ?_⟩
          rw [← h2]

/-- A concrete encoder with pending `two 0 30`, obtained through the public
interface. -/
def enc_two_ex : Encoder := ((Encoder.new 64 0).update_max_size 0).update_max_size 30

/-- Witness for C2 at the pending-`two` encoder with an empty header batch. -/
theorem encode_pending_then_headers_witness :
    Encoder.encode huff_id enc_two_ex [] [] = some (⟨⟨30, 0, []⟩, none⟩, [32, 62]) ∧
    (⟨⟨30, 0, []⟩, none⟩ : Encoder).size_update = none ∧
    (⟨⟨30, 0, []⟩, none⟩ : Encoder).table.max_size = 30 :=
  ⟨by decide,
   (encode_pending_then_headers huff_id enc_two_ex [] [] ⟨⟨30, 0, []⟩, none⟩ [32, 62]
     (by decide)).1,
   ((encode_pending_then_headers huff_id enc_two_ex [] [] ⟨⟨30, 0, []⟩, none⟩ [32, 62]
     (by decide)).2.2.2 0 30 (by decide)).1⟩

lemma encode_factor (huff : List Nat → List Nat) (e : Encoder) (hs : List Header)
    (dst : List Nat) :
    Encoder.encode huff e hs dst
      = (Encoder.encode huff e hs []).map (fun p => (p.1, dst ++ p.2)) := by
  unfold Encoder.encode
  cases hsu : e.size_update with
  | none =>
    dsimp only
    rw [encode_headers_eq_block, encode_headers_eq_block]
    cases encode_header_block huff ⟨e.table, none⟩ hs <;> simp
  | some su =>
    cases su with
    | one v =>
      dsimp only
      cases hf : encode_size_update v with
      | none => simp
      | some f =>
        dsimp only
        rw [encode_headers_eq_block, encode_headers_eq_block]
        cases encode_header_block huff ⟨e.table.resize v, none⟩ hs <;>
          simp [List.append_assoc]
    | two mn mx =>
      dsimp only
      cases hf1 : encode_size_update mn with
      | none =>
        cases hf2 : encode_size_update mx <;> simp
      | some f1 =>
        cases hf2 : encode_size_update mx with
        | none => simp
        | some f2 =>
          dsimp only
          rw [encode_headers_eq_block, encode_headers_eq_block]
          cases encode_header_block huff ⟨(e.table.resize mn).resize mx, none⟩ hs <;>
            simp [List.append_assoc]

/-- C10: `encode` only appends to the destination: a successful call equals
the same call on an empty destination with its output prefixed by `dst` (so
the serialized block occupies exactly the appended suffix, with no framing or
padding), and every byte at an index below the original length is
unchanged. -/
theorem encode_append_only (huff : List Nat → List Nat) (e : Encoder) (hs : List Header)
    (dst : List Nat) (e' : Encoder) (out : List Nat)
    (h : Encoder.encode huff e hs dst = some (e', out)) :
    (Encoder.encode huff e hs []).map (fun p => (p.1, dst ++ p.2)) = some (e', out)
  ∧ ∀ i, i < dst.length → out.getD i 0 = dst.getD i 0 := by
  constructor
  · rw [← encode_factor]
    exact h
  · rw [encode_factor] at h
    cases hE : Encoder.encode huff e hs [] with
    | none => rw [hE] at h; simp at h
    | some p =>
      rw [hE] at h
      simp only [Option.map_some', Option.some.injEq, Prod.mk.injEq] at h
      intro i hi
      rw [← h.2]
      exact getD_append_left' dst p.2 i 0 hi

/-- A concrete encoder with pending `one 0`, obtained through the public
interface. -/
def enc_one_ex : Encoder := (Encoder.new 64 0).update_max_size 0

/-- Witness for C10: encoding into the one-byte destination `[9]` appends the
size-update frame after it and leaves byte 0 unchanged. -/
theorem encode_append_only_witness :
    Encoder.encode huff_id enc_one_ex [] [9] = some (⟨⟨0, 0, []⟩, none⟩, [9, 32]) ∧
    (Encoder.encode huff_id enc_one_ex [] []).map (fun p => (p.1, [9] ++ p.2))
      = some (⟨⟨0, 0, []⟩, none⟩, [9, 32]) ∧
    ([9, 32] : List Nat).getD 0 0 = ([9] : List Nat).getD 0 0 :=
  ⟨by decide,
   (encode_append_only huff_id enc_one_ex [] [9] ⟨⟨0, 0, []⟩, none⟩ [9, 32] (by decide)).1,
   (encode_append_only huff_id enc_one_ex [] [9] ⟨⟨0, 0, []⟩, none⟩ [9, 32] (by decide)).2
     0 (by decide)⟩

/-- The wire table of spec 4.4, following the spec's words: `indexed i` is
the 7-bit-prefix integer `i` with base `0x80` and no payload;
`insertedValue i` the 6-bit-prefix integer with base `0x40` then the Huffman
value string; `inserted` the byte `0x40` then the Huffman name and value
strings; `name i` the 4-bit-prefix integer with base `0x10` (sensitive) or
`0x00` then the Huffman value string; `notIndexed` the single byte `0x10`
(sensitive) or `0x00` then the Huffman name and value strings.  "Huffman
string" is the string codec's output (`encode_str` into an empty buffer). -/
def wire_bytes (huff : List Nat → List Nat) : Index → Option (List Nat)
  | Index.indexed i _ => encode_int i 7 0x80
  | Index.name i h =>
    match encode_int i 4 (if h.sensitive then 0x10 else 0x00) with
    | none => none
    | some a => (encode_str huff h.value []).map (a ++ ·)
  | Index.inserted h =>
    match encode_str huff h.name [] with
    | none => none
    | some n => (encode_str huff h.value []).map (fun v => 0x40 :: (n ++ v))
  | Index.insertedValue i h =>
    match encode_int i 6 0x40 with
    | none => none
    | some a => (encode_str huff h.value []).map (a ++ ·)
  | Index.notIndexed h =>
    match encode_str huff h.name [] with
    | none => none
    | some n =>
      (encode_str huff h.value []).map
        (fun v => (if h.sensitive then 0x10 else 0x00) :: (n ++ v))

/-- C3: for every outcome the table can return, `encode_header`'s
serialization appends exactly the bytes of the wire table of spec 4.4.  The
`indexed`, `inserted` and `insertedValue` cases carry the source's assertion
that the header is not sensitive (the table never returns them for sensitive
headers, see the sensitive-isolation theorem). -/
theorem serialize_matches_wire (huff : List Nat → List Nat) (i : Nat) (h : Header)
    (dst : List Nat) :
    (h.sensitive = false →
      serialize_outcome huff (Index.indexed i h) dst
        = (wire_bytes huff (Index.indexed i h)).map (dst ++ ·))
  ∧ (serialize_outcome huff (Index.name i h) dst
      = (wire_bytes huff (Index.name i h)).map (dst ++ ·))
  ∧ (h.sensitive = false →
      serialize_outcome huff (Index.inserted h) dst
        = (wire_bytes huff (Index.inserted h)).map (dst ++ ·))
  ∧ (h.sensitive = false →
      serialize_outcome huff (Index.insertedValue i h) dst
        = (wire_bytes huff (Index.insertedValue i h)).map (dst ++ ·))
  ∧ (serialize_outcome huff (Index.notIndexed h) dst
      = (wire_bytes huff (Index.notIndexed h)).map (dst ++ ·)) := by
  refine ⟨?_, ?_, ?_, ?_, ?_⟩
  · intro hs
    simp only [serialize_outcome, wire_bytes, hs, Bool.false_eq_true, if_false]
  · simp only [serialize_outcome, wire_bytes]
    cases encode_int i 4 (if h.sensitive then 0x10 else 0x00) with
    | none => simp
    | some ib =>
      dsimp only
      rw [encode_str_factor huff h.value (dst ++ ib)]
      cases encode_str huff h.value [] <;> simp
  · intro hs
    simp only [serialize_outcome, wire_bytes, hs, Bool.false_eq_true, if_false]
    rw [encode_str_factor huff h.name (dst ++ [0b01000000])]
    cases encode_str huff h.name [] with
    | none => simp
    | some n =>
      simp only [Option.map_some']
      rw [encode_str_factor huff h.value (dst ++ [0b01000000] ++ n)]
      cases encode_str huff h.value [] <;> simp
  · intro hs
    simp only [serialize_outcome, wire_bytes, hs, Bool.false_eq_true, if_false]
    cases encode_int i 6 0x40 with
    | none => simp
    | some ib =>
      dsimp only
      rw [encode_str_factor huff h.value (dst ++ ib)]
      cases encode_str huff h.value [] <;> simp
  · simp only [serialize_outcome, wire_bytes]
    rw [encode_str_factor huff h.name (dst ++ [if h.sensitive then 0x10 else 0x00])]
    cases encode_str huff h.name [] with
    | none => simp
    | some n =>
      simp only [Option.map_some']
      rw [encode_str_factor huff h.value (dst ++ [if h.sensitive then 0x10 else 0x00] ++ n)]
      cases encode_str huff h.value [] <;> simp

/-- Witness for C3 at the static fully-indexed header `:method GET`. -/
theorem serialize_matches_wire_witness :
    (⟨ascii ":method", ascii "GET", false⟩ : Header).sensitive = false ∧
    serialize_outcome huff_id (Index.indexed 2 ⟨ascii ":method", ascii "GET", false⟩) []
      = (wire_bytes huff_id (Index.indexed 2 ⟨ascii ":method", ascii "GET", false⟩)).map
          ([] ++ ·) :=
  ⟨rfl,
   (serialize_matches_wire huff_id 2 ⟨ascii ":method", ascii "GET", false⟩ []).1 rfl⟩

lemma encode_headers_append_split (huff : List Nat → List Nat) :
    ∀ (xs ys : List Header) (e : Encoder) (dst : List Nat) (e2 : Encoder) (out : List Nat),
      encode_headers huff e (xs ++ ys) dst = some (e2, out) →
        ∃ e1 d1, encode_headers huff e xs dst = some (e1, d1)
          ∧ encode_headers huff e1 ys d1 = some (e2, out) := by
  intro xs
  induction xs with
  | nil =>
    intro ys e dst e2 out h
    rw [List.nil_append] at h
    exact ⟨e, dst, rfl, h⟩
  | cons x xs ih =>
    intro ys e dst e2 out h
    rw [List.cons_append] at h
    simp only [encode_headers] at h ⊢
    cases hE : Encoder.encode_header huff e x dst with
    | none => rw [hE] at h; simp at h
    | some p =>
      rw [hE] at h
      obtain ⟨e1, d1⟩ := p
      dsimp only at h
      exact ih ys e1 d1 e2 out h

lemma encode_header_sensitive_table (huff : List Nat → List Nat) (h : Header)
    (hsens : h.sensitive = true) (e : Encoder) (dst : List Nat) (e' : Encoder)
    (d' : List Nat) (hE : Encoder.encode_header huff e h dst = some (e', d')) :
    e'.table = e.table := by
  have hidx : (e.table.index h).2 = e.table := by
    unfold Table.index
    rw [if_pos hsens]
    cases e.table.find_name h.name <;> rfl
  unfold Encoder.encode_header at hE
  cases hso : serialize_outcome huff (e.table.index h).1 dst with
  | none => rw [hso] at hE; simp at hE
  | some d =>
    rw [hso] at hE
    dsimp only at hE
    simp only [Option.some.injEq, Prod.mk.injEq] at hE
    rw [← hE.1]
    exact hidx

/-- C6: sensitive isolation.  For every sensitive header the table's outcome
is `name` or `notIndexed` (carrying the sensitive header, so the sensitive bit
is serialized) and the table is left unchanged — hence the assertions in the
`indexed`, `inserted` and `insertedValue` arms never fire; and encoding any
batch ending in a sensitive header leaves the table exactly as encoding the
prefix alone. -/
theorem sensitive_isolation (huff : List Nat → List Nat) (h : Header)
    (hsens : h.sensitive = true) :
    (∀ t : Table,
      ((∃ i, (t.index h).1 = Index.name i h) ∨ (t.index h).1 = Index.notIndexed h)
      ∧ (t.index h).2 = t)
  ∧ (∀ (e : Encoder) (pre : List Header) (dst : List Nat) (e2 : Encoder) (out2 : List Nat),
      Encoder.encode huff e (pre ++ [h]) dst = some (e2, out2) →
        ∃ e1 out1, Encoder.encode huff e pre dst = some (e1, out1)
          ∧ e2.table = e1.table) := by
  constructor
  · intro t
    constructor
    · unfold Table.index
      rw [if_pos hsens]
      cases t.find_name h.name with
      | none => exact Or.inr rfl
      | some i => exact Or.inl ⟨i, rfl⟩
    · unfold Table.index
      rw [if_pos hsens]
      cases t.find_name h.name <;> rfl
  · have hlast : ∀ (e0 : Encoder) (pre : List Header) (d0 : List Nat) (e2 : Encoder)
        (out2 : List Nat),
        encode_headers huff e0 (pre ++ [h]) d0 = some (e2, out2) →
          ∃ e1 d1, encode_headers huff e0 pre d0 = some (e1, d1) ∧ e2.table = e1.table := by
      intro e0 pre d0 e2 out2 hh
      obtain ⟨e1, d1, h1, h2⟩ := encode_headers_append_split huff pre [h] e0 d0 e2 out2 hh
      refine ⟨e1, d1, h1, ?_⟩
      simp only [encode_headers] at h2
      cases hE : Encoder.encode_header huff e1 h d1 with
      | none => rw [hE] at h2; simp at h2
      | some p =>
        rw [hE] at h2
        obtain ⟨eh, dh⟩ := p
        dsimp only at h2
        simp only [encode_headers, Option.some.injEq, Prod.mk.injEq] at h2
        rw [← h2.1]
        exact encode_header_sensitive_table huff h hsens e1 d1 eh dh hE
    intro e pre dst e2 out2 henc
    unfold Encoder.encode at henc ⊢
    cases hsu : e.size_update with
    | none =>
      rw [hsu] at henc
      dsimp only at henc ⊢
      obtain ⟨e1, d1, h1, h2⟩ := hlast _ pre dst e2 out2 henc
      exact ⟨e1, d1, h1, h2⟩
    | some su =>
      rw [hsu] at henc
      cases su with
      | one v =>
        dsimp only at henc ⊢
        cases hf : encode_size_update v with
        | none => rw [hf] at henc; simp at henc
        | some f =>
          rw [hf] at henc
          dsimp only at henc ⊢
          obtain ⟨e1, d1, h1, h2⟩ := hlast _ pre (dst ++ f) e2 out2 henc
          exact ⟨e1, d1, h1, h2⟩
      | two mn mx =>
        dsimp only at henc ⊢
        cases hf1 : encode_size_update mn with
        | none =>
          rw [hf1] at henc
          cases hf2 : encode_size_update mx with
          | none => rw [hf2] at henc; simp at henc
          | some f2 => rw [hf2] at henc; simp at henc
        | some f1 =>
          rw [hf1] at henc
          cases hf2 : encode_size_update mx with
          | none => rw [hf2] at henc; simp at henc
          | some f2 =>
            rw [hf2] at henc
            dsimp only at henc ⊢
            obtain ⟨e1, d1, h1, h2⟩ := hlast _ pre (dst ++ f1 ++ f2) e2 out2 henc
            exact ⟨e1, d1, h1, h2⟩

/-- A concrete sensitive header for the C6 witness. -/
def sens_hdr : Header := ⟨ascii "authorization", ascii "12345", true⟩

/-- Witness for C6: the sensitive `authorization` header against a fresh
table — the outcome is `name`/`notIndexed` and the table is unchanged. -/
theorem sensitive_isolation_witness :
    ((∃ i, ((Table.new 4096 0).index sens_hdr).1 = Index.name i sens_hdr)
      ∨ ((Table.new 4096 0).index sens_hdr).1 = Index.notIndexed sens_hdr)
    ∧ ((Table.new 4096 0).index sens_hdr).2 = Table.new 4096 0 :=
  (sensitive_isolation huff_id sens_hdr rfl).1 (Table.new 4096 0)

end Hpack
